import Mathlib

/-!
Verification of the OCaml symbol demangler
(`llvm/lib/Demangle/OcamlDemangle.cpp`).

The C function `ocamlDemangle` takes a NUL-terminated byte string `sym`
with `len = strlen(sym)`, asserts `len >= 5`, skips the 4-byte `caml`
tag, and scans the rest left to right:
  * `"__"` emits `'.'` (46) and advances by 2;
  * `'$'` (36) followed by two hex digits emits the decoded byte
    `hex(c1) << 4 | hex(c2)` and advances by 3;
  * otherwise the byte is copied and the scan advances by 1.
A final pass scans backward over a trailing run of decimal digits and,
if the byte just before the run is `'_'` (95), truncates there.

The embedding models the byte string as a `List Nat`.  Reading `sym[k]`
on the NUL-terminated buffer is `symGet`: positions past the end of the
list yield the terminator byte 0, exactly as `sym[len]` does in C (the
scan's guards short-circuit before any position past `len` is read).
The `assert` is modelled by `ocamlDemangleChecked`, which returns `none`
when the asserted precondition fails.
-/

/-- C `isdigit` on byte values: `'0'` (48) through `'9'` (57). -/
def isdigit (c : Nat) : Bool := 48 ≤ c && c ≤ 57

/-- C `isxdigit` on byte values: `0-9`, `a-f` (97-102), `A-F` (65-70). -/
def isxdigit (c : Nat) : Bool :=
  (48 ≤ c && c ≤ 57) || (97 ≤ c && c ≤ 102) || (65 ≤ c && c ≤ 70)

/-- `hex` from the source: digit value of a hex digit character
(`c - '0'`, `c - 'a' + 10`, else `c - 'A' + 10`). -/
def hex (c : Nat) : Nat :=
  if 48 ≤ c ∧ c ≤ 57 then c - 48
  else if 97 ≤ c ∧ c ≤ 102 then c - 97 + 10
  else c - 65 + 10

/-- Reading `sym[k]` on the NUL-terminated buffer: bytes of the string
for `k < len`, and the terminator byte 0 at `k = len`.  (The C code
never reads past index `len`; see `scan_no_read_past_end`.) -/
def symGet (sym : List Nat) (k : Nat) : Nat := sym.getD k 0

/-- The main `while (i < len)` scan of `ocamlDemangle`, from input
position `i`, returning the list of emitted output bytes.  The three
guards are checked in source order: separator, escape, literal. -/
def scanFrom (sym : List Nat) (i : Nat) : List Nat :=
  if h : i < sym.length then
    if symGet sym i = 95 ∧ symGet sym (i + 1) = 95 then
      46 :: scanFrom sym (i + 2)
    else if symGet sym i = 36 ∧ isxdigit (symGet sym (i + 1)) = true ∧
        isxdigit (symGet sym (i + 2)) = true then
      (hex (symGet sym (i + 1)) <<< 4 ||| hex (symGet sym (i + 2))) ::
        scanFrom sym (i + 3)
    else
      symGet sym i :: scanFrom sym (i + 1)
  else []
termination_by sym.length - i
decreasing_by all_goals omega

/-- The `while (--j)` loop of the suffix-trim pass: starting from
cursor value `j`, decrement, stop at cursor 0, or break at the first
non-digit byte; returns the final cursor value. -/
def trimScan (result : List Nat) : Nat → Nat
  | 0 => 0
  | j + 1 =>
    if j = 0 then 0
    else if isdigit (result.getD j 0) = true then trimScan result j
    else j

/-- The suffix-trim pass: if the output is non-empty and ends in a
decimal digit, run the backward scan; if the byte at the final cursor
is `'_'` (95), truncate there (the C code writes a NUL at that index). -/
def trim (result : List Nat) : List Nat :=
  if result.length ≠ 0 ∧ isdigit (result.getD (result.length - 1) 0) = true then
    if result.getD (trimScan result result.length) 0 = 95 then
      result.take (trimScan result result.length)
    else result
  else result

/-- `ocamlDemangle` past its assertion: scan from index 4 (skipping the
4-byte tag), then apply the suffix-trim pass. -/
def ocamlDemangle (sym : List Nat) : List Nat :=
  trim (scanFrom sym 4)

/-- `ocamlDemangle` with its `assert(len >= 5)` modelled as a failure:
`none` when the precondition is violated, otherwise the decoded bytes. -/
def ocamlDemangleChecked (sym : List Nat) : Option (List Nat) :=
  if 5 ≤ sym.length then some (ocamlDemangle sym) else none

/-- Structurally recursive twin of `scanFrom`, operating on the list
suffix that remains to be scanned.  A missing lookahead byte is the
terminator 0 of the C buffer, which satisfies neither multi-byte guard,
so short suffixes fall to the literal rule.  Used to evaluate the scan
on concrete inputs; `scanFrom_eq_scanList` proves it coincides with
`scanFrom`. -/
def scanList : List Nat → List Nat
  | [] => []
  | [c] => [c]
  | [c1, c2] => if c1 = 95 ∧ c2 = 95 then [46] else c1 :: scanList [c2]
  | c1 :: c2 :: c3 :: rest =>
    if c1 = 95 ∧ c2 = 95 then 46 :: scanList (c3 :: rest)
    else if c1 = 36 ∧ isxdigit c2 = true ∧ isxdigit c3 = true then
      (hex c2 <<< 4 ||| hex c3) :: scanList rest
    else c1 :: scanList (c2 :: c3 :: rest)

/-! ### Basic facts about `symGet`, `isxdigit`, `hex` -/

theorem symGet_eq_getElem (sym : List Nat) (k : Nat) (h : k < sym.length) :
    symGet sym k = sym[k] :=
  List.getD_eq_getElem sym 0 h

theorem symGet_eq_zero (sym : List Nat) (k : Nat) (h : sym.length ≤ k) :
    symGet sym k = 0 :=
  List.getD_eq_default sym 0 h

theorem isxdigit_zero : isxdigit 0 = false := by decide

theorem hex_lt_16 (c : Nat) (h : isxdigit c = true) : hex c < 16 := by
  unfold isxdigit at h
  unfold hex
  simp only [Bool.or_eq_true, Bool.and_eq_true, decide_eq_true_eq] at h
  rcases h with (⟨h1, h2⟩ | ⟨h1, h2⟩) | ⟨h1, h2⟩ <;>
    · split <;> [omega; split <;> omega]

theorem shiftLeft_lor_bounded :
    ∀ a, a < 16 → ∀ b, b < 16 → (a <<< 4 ||| b) = 16 * a + b := by decide

theorem shiftLeft_lor_eq (a b : Nat) (ha : a < 16) (hb : b < 16) :
    (a <<< 4 ||| b) = 16 * a + b :=
  shiftLeft_lor_bounded a ha b hb

/-! ### Unfolding lemmas for `scanFrom` -/

theorem scanFrom_stop (sym : List Nat) (i : Nat) (h : sym.length ≤ i) :
    scanFrom sym i = [] := by
  unfold scanFrom
  rw [dif_neg (by omega)]

theorem scanFrom_sep (sym : List Nat) (i : Nat) (h : i < sym.length)
    (h1 : symGet sym i = 95) (h2 : symGet sym (i + 1) = 95) :
    scanFrom sym i = 46 :: scanFrom sym (i + 2) := by
  conv_lhs => rw [scanFrom]
  rw [dif_pos h, if_pos ⟨h1, h2⟩]

theorem scanFrom_esc (sym : List Nat) (i : Nat) (h : i < sym.length)
    (h1 : symGet sym i = 36) (h2 : isxdigit (symGet sym (i + 1)) = true)
    (h3 : isxdigit (symGet sym (i + 2)) = true) :
    scanFrom sym i =
      (hex (symGet sym (i + 1)) <<< 4 ||| hex (symGet sym (i + 2))) ::
        scanFrom sym (i + 3) := by
  conv_lhs => rw [scanFrom]
  rw [dif_pos h, if_neg (by rintro ⟨hc, -⟩; omega), if_pos ⟨h1, h2, h3⟩]

theorem scanFrom_lit (sym : List Nat) (i : Nat) (h : i < sym.length)
    (h1 : ¬(symGet sym i = 95 ∧ symGet sym (i + 1) = 95))
    (h2 : ¬(symGet sym i = 36 ∧ isxdigit (symGet sym (i + 1)) = true ∧
      isxdigit (symGet sym (i + 2)) = true)) :
    scanFrom sym i = symGet sym i :: scanFrom sym (i + 1) := by
  conv_lhs => rw [scanFrom]
  rw [dif_pos h, if_neg h1, if_neg h2]

/-! ### The backward cursor of the suffix-trim pass -/

theorem trimScan_all_digits (o : List Nat) (j : Nat) :
    (∀ k, 1 ≤ k → k < j → isdigit (o.getD k 0) = true) → trimScan o j = 0 := by
  induction j with
  | zero => intro _; rfl
  | succ j ih =>
    intro h
    unfold trimScan
    by_cases hj : j = 0
    · rw [if_pos hj]
    · rw [if_neg hj, if_pos (h j (by omega) (by omega))]
      exact ih fun k hk1 hk2 => h k hk1 (by omega)

theorem trimScan_break (o : List Nat) (p : Nat) (hp : 1 ≤ p)
    (hnd : isdigit (o.getD p 0) = false) (j : Nat) :
    p < j → (∀ m, p < m → m < j → isdigit (o.getD m 0) = true) →
    trimScan o j = p := by
  induction j with
  | zero => intro h _; omega
  | succ j ih =>
    intro hpj h
    unfold trimScan
    by_cases hjp : j = p
    · subst hjp
      rw [if_neg (by omega), if_neg (by rw [hnd]; exact Bool.false_ne_true)]
    · rw [if_neg (by omega), if_pos (h j (by omega) (by omega))]
      exact ih (by omega) fun m h1 h2 => h m h1 (by omega)

theorem trimScan_lt (o : List Nat) (j : Nat) (hj : 1 ≤ j) : trimScan o j < j := by
  induction j with
  | zero => omega
  | succ j ih =>
    unfold trimScan
    by_cases hj0 : j = 0
    · rw [if_pos hj0]; omega
    · rw [if_neg hj0]
      split
      · have := ih (by omega); omega
      · omega

theorem trimScan_digits_above (o : List Nat) (j : Nat) :
    ∀ m, trimScan o j < m → m < j → isdigit (o.getD m 0) = true := by
  induction j with
  | zero => intro m h1 h2; omega
  | succ j ih =>
    intro m h1 h2
    unfold trimScan at h1
    by_cases hj0 : j = 0
    · rw [if_pos hj0] at h1; omega
    · rw [if_neg hj0] at h1
      by_cases hd : isdigit (o.getD j 0) = true
      · rw [if_pos hd] at h1
        by_cases hm : m = j
        · subst hm; exact hd
        · exact ih m h1 (by omega)
      · rw [if_neg hd] at h1
        omega

/-! ### Characterization of the suffix-trim pass -/

theorem trim_truncates (o : List Nat) (k : Nat) (hk : k + 1 < o.length)
    (hu : o.getD k 0 = 95)
    (hd : ∀ m, k < m → m < o.length → isdigit (o.getD m 0) = true) :
    trim o = o.take k := by
  have hn : o.length ≠ 0 := by omega
  have hlast : isdigit (o.getD (o.length - 1) 0) = true :=
    hd (o.length - 1) (by omega) (by omega)
  have hscan : trimScan o o.length = k := by
    by_cases hk0 : k = 0
    · subst hk0
      exact trimScan_all_digits o o.length fun m h1 h2 => hd m (by omega) h2
    · exact trimScan_break o k (by omega) (by rw [hu]; decide) o.length
        (by omega) fun m h1 h2 => hd m h1 h2
  unfold trim
  rw [if_pos ⟨hn, hlast⟩, hscan, if_pos hu]

theorem trim_id (o : List Nat)
    (h : ¬ ∃ k, k + 1 < o.length ∧ o.getD k 0 = 95 ∧
      ∀ m, k < m → m < o.length → isdigit (o.getD m 0) = true) :
    trim o = o := by
  unfold trim
  by_cases hc : o.length ≠ 0 ∧ isdigit (o.getD (o.length - 1) 0) = true
  · rw [if_pos hc]
    by_cases hu : o.getD (trimScan o o.length) 0 = 95
    · exfalso
      apply h
      have hlt : trimScan o o.length < o.length := trimScan_lt o o.length (by omega)
      have hne : trimScan o o.length + 1 < o.length := by
        rcases Nat.lt_or_ge (trimScan o o.length + 1) o.length with h1 | h1
        · exact h1
        · have heq : trimScan o o.length = o.length - 1 := by omega
          rw [heq] at hu
          rw [hu] at hc
          exact absurd hc.2 (by decide)
      exact ⟨trimScan o o.length, hne, hu,
        fun m h1 h2 => trimScan_digits_above o o.length m h1 h2⟩
    · rw [if_neg hu]
  · rw [if_neg hc]

theorem trim_length (o : List Nat) : (trim o).length ≤ o.length := by
  unfold trim
  split
  · split
    · rw [List.length_take]; omega
    · exact Nat.le_refl _
  · exact Nat.le_refl _

/-! ### Reading the input suffix as a list -/

theorem drop_eq_symGet_cons (sym : List Nat) (i : Nat) (h : i < sym.length) :
    sym.drop i = symGet sym i :: sym.drop (i + 1) := by
  rw [symGet_eq_getElem sym i h]
  exact List.drop_eq_getElem_cons h

/-! ### The scan agrees with its structural twin -/

theorem scanFrom_eq_scanList_fuel (sym : List Nat) (n : Nat) :
    ∀ i, sym.length - i ≤ n → scanFrom sym i = scanList (sym.drop i) := by
  induction n with
  | zero =>
    intro i hn
    rw [scanFrom_stop sym i (by omega), List.drop_eq_nil_of_le (by omega)]
    rfl
  | succ n ih =>
    intro i hn
    by_cases hi : i < sym.length
    · have hd : sym.drop i = symGet sym i :: sym.drop (i + 1) :=
        drop_eq_symGet_cons sym i hi
      by_cases hi1 : i + 1 < sym.length
      · have hd1 : sym.drop (i + 1) = symGet sym (i + 1) :: sym.drop (i + 2) :=
          drop_eq_symGet_cons sym (i + 1) hi1
        by_cases hi2 : i + 2 < sym.length
        · have hd2 : sym.drop (i + 2) = symGet sym (i + 2) :: sym.drop (i + 3) :=
            drop_eq_symGet_cons sym (i + 2) hi2
          rw [hd, hd1, hd2]
          by_cases hsep : symGet sym i = 95 ∧ symGet sym (i + 1) = 95
          · rw [scanFrom_sep sym i hi hsep.1 hsep.2, ih (i + 2) (by omega), hd2]
            simp only [scanList]
            rw [if_pos hsep]
          · by_cases hesc : symGet sym i = 36 ∧ isxdigit (symGet sym (i + 1)) = true ∧
                isxdigit (symGet sym (i + 2)) = true
            · rw [scanFrom_esc sym i hi hesc.1 hesc.2.1 hesc.2.2, ih (i + 3) (by omega)]
              simp only [scanList]
              rw [if_neg hsep, if_pos hesc]
            · rw [scanFrom_lit sym i hi hsep hesc, ih (i + 1) (by omega), hd1, hd2]
              simp only [scanList]
              rw [if_neg hsep, if_neg hesc]
        · have hd2 : sym.drop (i + 2) = [] := List.drop_eq_nil_of_le (by omega)
          have h0 : symGet sym (i + 2) = 0 := symGet_eq_zero sym (i + 2) (by omega)
          rw [hd, hd1, hd2]
          by_cases hsep : symGet sym i = 95 ∧ symGet sym (i + 1) = 95
          · rw [scanFrom_sep sym i hi hsep.1 hsep.2,
              scanFrom_stop sym (i + 2) (by omega)]
            simp only [scanList]
            rw [if_pos hsep]
          · have hesc : ¬(symGet sym i = 36 ∧ isxdigit (symGet sym (i + 1)) = true ∧
                isxdigit (symGet sym (i + 2)) = true) := by
              rintro ⟨-, -, h3⟩
              rw [h0] at h3
              exact absurd h3 (by decide)
            rw [scanFrom_lit sym i hi hsep hesc, ih (i + 1) (by omega), hd1, hd2]
            simp only [scanList]
            rw [if_neg hsep]
      · have hd1 : sym.drop (i + 1) = [] := List.drop_eq_nil_of_le (by omega)
        have h01 : symGet sym (i + 1) = 0 := symGet_eq_zero sym (i + 1) (by omega)
        have h02 : symGet sym (i + 2) = 0 := symGet_eq_zero sym (i + 2) (by omega)
        have hsep : ¬(symGet sym i = 95 ∧ symGet sym (i + 1) = 95) := by
          rintro ⟨-, h2⟩; omega
        have hesc : ¬(symGet sym i = 36 ∧ isxdigit (symGet sym (i + 1)) = true ∧
            isxdigit (symGet sym (i + 2)) = true) := by
          rintro ⟨-, h2, -⟩
          rw [h01] at h2
          exact absurd h2 (by decide)
        rw [scanFrom_lit sym i hi hsep hesc, scanFrom_stop sym (i + 1) (by omega),
          hd, hd1]
        rfl
    · rw [scanFrom_stop sym i (by omega), List.drop_eq_nil_of_le (by omega)]
      rfl

theorem scanFrom_eq_scanList (sym : List Nat) (i : Nat) :
    scanFrom sym i = scanList (sym.drop i) :=
  scanFrom_eq_scanList_fuel sym (sym.length - i) i (Nat.le_refl _)

/-- Evaluation form of `ocamlDemangle`, used to compute concrete
examples: the scan of the suffix after the 4-byte tag, then the trim. -/
theorem ocamlDemangle_eval (sym : List Nat) :
    ocamlDemangle sym = trim (scanList (sym.drop 4)) := by
  unfold ocamlDemangle
  rw [scanFrom_eq_scanList]

/-! ### Length bound of the scan -/

theorem scanFrom_length_fuel (sym : List Nat) (n : Nat) :
    ∀ i, sym.length - i ≤ n → (scanFrom sym i).length ≤ sym.length - i := by
  induction n with
  | zero =>
    intro i hn
    rw [scanFrom_stop sym i (by omega)]
    simp
  | succ n ih =>
    intro i hn
    by_cases hi : i < sym.length
    · by_cases hsep : symGet sym i = 95 ∧ symGet sym (i + 1) = 95
      · rw [scanFrom_sep sym i hi hsep.1 hsep.2, List.length_cons]
        have := ih (i + 2) (by omega)
        omega
      · by_cases hesc : symGet sym i = 36 ∧ isxdigit (symGet sym (i + 1)) = true ∧
            isxdigit (symGet sym (i + 2)) = true
        · rw [scanFrom_esc sym i hi hesc.1 hesc.2.1 hesc.2.2, List.length_cons]
          have := ih (i + 3) (by omega)
          -- the escape rule needs bytes at i+1 and i+2, so it fires only
          -- when i + 2 < sym.length (see scan_no_read_past_end); hence
          -- 1 + (sym.length - (i + 3)) ≤ sym.length - i even holds with
          -- room to spare, and for i + 3 > sym.length the tail is empty
          omega
        · rw [scanFrom_lit sym i hi hsep hesc, List.length_cons]
          have := ih (i + 1) (by omega)
          omega
    · rw [scanFrom_stop sym i (by omega)]
      simp

theorem scanFrom_length (sym : List Nat) (i : Nat) :
    (scanFrom sym i).length ≤ sym.length - i :=
  scanFrom_length_fuel sym (sym.length - i) i (Nat.le_refl _)

/-! ### Pass-through scan -/

theorem scanFrom_passthrough_fuel (sym : List Nat)
    (hsep : ∀ i, ¬(symGet sym i = 95 ∧ symGet sym (i + 1) = 95))
    (hesc : ∀ i, ¬(symGet sym i = 36 ∧ isxdigit (symGet sym (i + 1)) = true ∧
      isxdigit (symGet sym (i + 2)) = true)) (n : Nat) :
    ∀ i, sym.length - i ≤ n → scanFrom sym i = sym.drop i := by
  induction n with
  | zero =>
    intro i hn
    rw [scanFrom_stop sym i (by omega), List.drop_eq_nil_of_le (by omega)]
  | succ n ih =>
    intro i hn
    by_cases hi : i < sym.length
    · rw [scanFrom_lit sym i hi (hsep i) (hesc i), ih (i + 1) (by omega),
        drop_eq_symGet_cons sym i hi]
    · rw [scanFrom_stop sym i (by omega), List.drop_eq_nil_of_le (by omega)]

theorem scanFrom_passthrough (sym : List Nat)
    (hsep : ∀ i, ¬(symGet sym i = 95 ∧ symGet sym (i + 1) = 95))
    (hesc : ∀ i, ¬(symGet sym i = 36 ∧ isxdigit (symGet sym (i + 1)) = true ∧
      isxdigit (symGet sym (i + 2)) = true)) (i : Nat) :
    scanFrom sym i = sym.drop i :=
  scanFrom_passthrough_fuel sym hsep hesc (sym.length - i) i (Nat.le_refl _)

/-! ### Remaining helper lemmas for the claims -/

theorem trim_single (b : Nat) : trim [b] = [b] := by
  by_cases hd : isdigit b = true
  · have hne : ¬ (b = 95) := by
      unfold isdigit at hd
      simp only [Bool.and_eq_true, decide_eq_true_eq] at hd
      omega
    unfold trim
    have h1 : trimScan [b] [b].length = 0 := rfl
    have h2 : [b].getD 0 0 = b := rfl
    rw [if_pos ⟨by simp, hd⟩, h1, h2, if_neg hne]
  · unfold trim
    rw [if_neg fun hc => hd hc.2]

/-! ### Claim theorems -/

/-- C1: at every position of the main scan the three rules are tried in
fixed order — separator (`__` emits `'.'`, advance 2), then escape
(`'$'` plus two hex digits emits the decoded byte, advance 3), then
literal copy (advance 1) — so a lone `'_'` is copied as-is and a `'$'`
not followed by two hex digits is copied as a single `'$'` with the
following bytes processed independently; in particular decoding
`"caml__"` gives `"."` and decoding `"caml$gg"` gives `"$gg"`. -/
theorem scan_rule_precedence :
    (∀ (sym : List Nat) (i : Nat), i < sym.length →
      ((symGet sym i = 95 ∧ symGet sym (i + 1) = 95) →
        scanFrom sym i = 46 :: scanFrom sym (i + 2)) ∧
      (¬(symGet sym i = 95 ∧ symGet sym (i + 1) = 95) →
        (symGet sym i = 36 ∧ isxdigit (symGet sym (i + 1)) = true ∧
          isxdigit (symGet sym (i + 2)) = true) →
        scanFrom sym i =
          (hex (symGet sym (i + 1)) <<< 4 ||| hex (symGet sym (i + 2))) ::
            scanFrom sym (i + 3)) ∧
      (¬(symGet sym i = 95 ∧ symGet sym (i + 1) = 95) →
        ¬(symGet sym i = 36 ∧ isxdigit (symGet sym (i + 1)) = true ∧
          isxdigit (symGet sym (i + 2)) = true) →
        scanFrom sym i = symGet sym i :: scanFrom sym (i + 1))) ∧
    ocamlDemangle [99, 97, 109, 108, 95, 95] = [46] ∧
    ocamlDemangle [99, 97, 109, 108, 36, 103, 103] = [36, 103, 103] := by
  refine ⟨fun sym i hi =>
    ⟨fun h => scanFrom_sep sym i hi h.1 h.2,
     fun _ h => scanFrom_esc sym i hi h.1 h.2.1 h.2.2,
     fun h1 h2 => scanFrom_lit sym i hi h1 h2⟩, ?_, ?_⟩ <;>
  · rw [ocamlDemangle_eval]
    decide

theorem scan_rule_precedence_witness :
    scanFrom [99, 97, 109, 108, 95, 95] 4 =
      46 :: scanFrom [99, 97, 109, 108, 95, 95] 6 :=
  ((scan_rule_precedence.1 [99, 97, 109, 108, 95, 95] 4 (by decide)).1) (by decide)

/-- C2: the suffix-trim pass truncates exactly when the scan output has
a position `k` holding `'_'` that is followed, to the very end, by one
or more decimal digits; it then drops that underscore and everything
after it.  In every other case — in particular when the byte before the
trailing digit run is not `'_'`, or the whole output is digits — the
output is unchanged.  Hence decoding `"camlFoo__Bar_42"` gives
`"Foo.Bar"`, `"camlFoo_42"` gives `"Foo"`, and `"camlFoo42"` gives
`"Foo42"`. -/
theorem suffix_trim_characterization :
    (∀ (o : List Nat) (k : Nat), k + 1 < o.length → o.getD k 0 = 95 →
      (∀ m, k < m → m < o.length → isdigit (o.getD m 0) = true) →
      trim o = o.take k) ∧
    (∀ o : List Nat,
      (∀ k, k < o.length - 1 → o.getD k 0 = 95 →
        ∃ m, m < o.length ∧ (k < m ∧ isdigit (o.getD m 0) = false)) →
      trim o = o) ∧
    ocamlDemangle [99, 97, 109, 108, 70, 111, 111, 95, 95, 66, 97, 114, 95, 52, 50] =
      [70, 111, 111, 46, 66, 97, 114] ∧
    ocamlDemangle [99, 97, 109, 108, 70, 111, 111, 95, 52, 50] = [70, 111, 111] ∧
    ocamlDemangle [99, 97, 109, 108, 70, 111, 111, 52, 50] = [70, 111, 111, 52, 50] := by
  refine ⟨fun o k hk hu hd => trim_truncates o k hk hu hd, ?_, ?_, ?_, ?_⟩
  · intro o h
    apply trim_id
    rintro ⟨k, hk1, hk2, hk3⟩
    obtain ⟨m, hm1, hm2, hm3⟩ := h k (by omega) hk2
    rw [hk3 m hm2 hm1] at hm3
    exact absurd hm3 (by decide)
  all_goals
  · rw [ocamlDemangle_eval]
    decide

theorem suffix_trim_characterization_witness :
    trim [95, 53] = List.take 0 [95, 53] ∧ trim [70] = [70] :=
  ⟨suffix_trim_characterization.1 [95, 53] 0 (by decide) (by decide)
      (fun m h1 h2 => by
        have hm : m = 1 := by simp at h2; omega
        subst hm
        decide),
    suffix_trim_characterization.2.1 [70] (by decide)⟩

/-- C3: for inputs of length at least 5 the main scan never reads a
byte beyond the end of the input: the separator guard can only hold at
position `i` when the byte at `i + 1` exists within the input, the
escape guard only when the bytes at `i + 1` and `i + 2` both exist
(a missing byte reads as the NUL terminator, which is neither `'_'`
nor a hex digit), and at the last position the scan always takes the
single-byte literal rule. -/
theorem scan_no_read_past_end :
    ∀ (sym : List Nat) (i : Nat), 5 ≤ sym.length → i < sym.length →
      ((symGet sym i = 95 ∧ symGet sym (i + 1) = 95) → i + 1 < sym.length) ∧
      ((symGet sym i = 36 ∧ isxdigit (symGet sym (i + 1)) = true ∧
        isxdigit (symGet sym (i + 2)) = true) → i + 2 < sym.length) ∧
      (sym.length ≤ i + 1 → scanFrom sym i = [symGet sym i]) := by
  intro sym i _ hi
  refine ⟨?_, ?_, ?_⟩
  · rintro ⟨-, h2⟩
    by_contra hc
    rw [symGet_eq_zero sym (i + 1) (by omega)] at h2
    omega
  · rintro ⟨-, -, h3⟩
    by_contra hc
    rw [symGet_eq_zero sym (i + 2) (by omega)] at h3
    exact absurd h3 (by decide)
  · intro hle
    have h01 : symGet sym (i + 1) = 0 := symGet_eq_zero sym (i + 1) hle
    have hsep : ¬(symGet sym i = 95 ∧ symGet sym (i + 1) = 95) := by
      rintro ⟨-, h2⟩
      rw [h01] at h2
      omega
    have hesc : ¬(symGet sym i = 36 ∧ isxdigit (symGet sym (i + 1)) = true ∧
        isxdigit (symGet sym (i + 2)) = true) := by
      rintro ⟨-, h2, -⟩
      rw [h01] at h2
      exact absurd h2 (by decide)
    rw [scanFrom_lit sym i hi hsep hesc, scanFrom_stop sym (i + 1) hle]

theorem scan_no_read_past_end_witness :
    scanFrom [99, 97, 109, 108, 95] 4 = [symGet [99, 97, 109, 108, 95] 4] :=
  (scan_no_read_past_end [99, 97, 109, 108, 95] 4 (by decide) (by decide)).2.2
    (by decide)

/-- C4 counterexample: the input `"caml"` has length 4, so it violates
the asserted precondition `len >= 5`; the decode fails at the assertion
instead of yielding an empty output, refuting the claim that decoding
`"caml"` yields empty output with no crash. -/
theorem caml_length_four_asserts :
    ocamlDemangleChecked [99, 97, 109, 108] = none ∧
    ¬ ocamlDemangleChecked [99, 97, 109, 108] = some [] := by
  unfold ocamlDemangleChecked
  rw [if_neg (by decide)]
  exact ⟨rfl, by decide⟩

/-- C4 amended: decoding `"caml"` (length exactly 4) trips the
`len >= 5` assertion rather than returning; if the assertion is
disregarded (as in an NDEBUG build), the main scan produces the empty
output and the suffix-trim pass is a no-op on that empty output. -/
theorem caml_scan_empty_when_assert_skipped :
    ocamlDemangle [99, 97, 109, 108] = [] ∧
    scanFrom [99, 97, 109, 108] 4 = [] ∧ trim [] = [] := by
  refine ⟨?_, ?_, rfl⟩
  · rw [ocamlDemangle_eval]
    decide
  · rw [scanFrom_eq_scanList]
    decide

/-- C5: for any two hex digits `c1 c2` (either case) spelling the byte
`b = 16 * hex c1 + hex c2` (high nibble first), decoding
`"caml" ++ "$" ++ [c1, c2]` yields the single byte `b`, which is a
valid byte value. -/
theorem escape_round_trip (b c1 c2 : Nat) (h1 : isxdigit c1 = true)
    (h2 : isxdigit c2 = true) (hb : 16 * hex c1 + hex c2 = b) :
    ocamlDemangle [99, 97, 109, 108, 36, c1, c2] = [b] ∧ b < 256 := by
  have hx1 := hex_lt_16 c1 h1
  have hx2 := hex_lt_16 c2 h2
  constructor
  · unfold ocamlDemangle
    have hscan := scanFrom_esc [99, 97, 109, 108, 36, c1, c2] 4 (by simp)
      rfl h1 h2
    rw [hscan, scanFrom_stop [99, 97, 109, 108, 36, c1, c2] 7 (by simp)]
    have hbyte : (hex (symGet [99, 97, 109, 108, 36, c1, c2] 5) <<< 4 |||
        hex (symGet [99, 97, 109, 108, 36, c1, c2] 6)) = b := by
      show (hex c1 <<< 4 ||| hex c2) = b
      rw [shiftLeft_lor_eq (hex c1) (hex c2) hx1 hx2, hb]
    rw [hbyte]
    exact trim_single b
  · omega

theorem escape_round_trip_witness :
    ocamlDemangle [99, 97, 109, 108, 36, 102, 102] = [255] ∧ (255 : Nat) < 256 :=
  escape_round_trip 255 102 102 (by decide) (by decide) (by decide)

/-- C6: for every input of length at least 5 the final decoded output,
after the scan and the suffix trim, is no longer than the input minus
its 4-byte tag. -/
theorem decoded_length_le (sym : List Nat) (_h : 5 ≤ sym.length) :
    (ocamlDemangle sym).length ≤ sym.length - 4 := by
  unfold ocamlDemangle
  exact Nat.le_trans (trim_length (scanFrom sym 4)) (scanFrom_length sym 4)

theorem decoded_length_le_witness :
    (ocamlDemangle [99, 97, 109, 108, 65]).length ≤
      List.length [99, 97, 109, 108, 65] - 4 :=
  decoded_length_le [99, 97, 109, 108, 65] (by decide)

/-- C7: every input of length 4 or fewer fails the `len >= 5`
precondition check (the assertion, modelled as `none`) and produces no
decoded output, while every input of length at least 5 decodes
successfully — the length precondition is the only failure mode. -/
theorem length_precondition_only_failure :
    (∀ sym : List Nat, sym.length ≤ 4 → ocamlDemangleChecked sym = none) ∧
    (∀ sym : List Nat, 5 ≤ sym.length →
      ocamlDemangleChecked sym = some (ocamlDemangle sym)) := by
  constructor
  · intro sym h
    unfold ocamlDemangleChecked
    rw [if_neg (by omega)]
  · intro sym h
    unfold ocamlDemangleChecked
    rw [if_pos h]

theorem length_precondition_only_failure_witness :
    ocamlDemangleChecked [97, 98, 99] = none ∧
    ocamlDemangleChecked [99, 97, 109, 108, 65] =
      some (ocamlDemangle [99, 97, 109, 108, 65]) :=
  ⟨length_precondition_only_failure.1 [97, 98, 99] (by decide),
   length_precondition_only_failure.2 [99, 97, 109, 108, 65] (by decide)⟩

/-- C8: an input of length at least 5 that contains no `"__"` pair and
no `'$'` followed by two hex digits, and whose part after the 4-byte
tag does not end in an underscore followed only by decimal digits (every
`'_'` has some non-digit after it), decodes to exactly the input with
its first 4 bytes removed. -/
theorem passthrough_decode (sym : List Nat) (h5 : 5 ≤ sym.length)
    (hsep : ∀ i, i < sym.length → ¬(symGet sym i = 95 ∧ symGet sym (i + 1) = 95))
    (hesc : ∀ i, i < sym.length → ¬(symGet sym i = 36 ∧
      isxdigit (symGet sym (i + 1)) = true ∧ isxdigit (symGet sym (i + 2)) = true))
    (htail : ∀ k, k < sym.length - 5 → (sym.drop 4).getD k 0 = 95 →
      ∃ m, m < sym.length - 4 ∧ (k < m ∧ isdigit ((sym.drop 4).getD m 0) = false)) :
    ocamlDemangle sym = sym.drop 4 := by
  have hsep2 : ∀ i, ¬(symGet sym i = 95 ∧ symGet sym (i + 1) = 95) := by
    intro i
    by_cases hi : i < sym.length
    · exact hsep i hi
    · rintro ⟨h1, -⟩
      rw [symGet_eq_zero sym i (by omega)] at h1
      omega
  have hesc2 : ∀ i, ¬(symGet sym i = 36 ∧ isxdigit (symGet sym (i + 1)) = true ∧
      isxdigit (symGet sym (i + 2)) = true) := by
    intro i
    by_cases hi : i < sym.length
    · exact hesc i hi
    · rintro ⟨h1, -⟩
      rw [symGet_eq_zero sym i (by omega)] at h1
      omega
  have hlen : (sym.drop 4).length = sym.length - 4 := by simp
  unfold ocamlDemangle
  rw [scanFrom_passthrough sym hsep2 hesc2 4]
  apply trim_id
  rintro ⟨k, hk1, hk2, hk3⟩
  obtain ⟨m, hm1, hm2, hm3⟩ := htail k (by omega) hk2
  rw [hk3 m hm2 (by omega)] at hm3
  exact absurd hm3 (by decide)

theorem passthrough_decode_witness :
    ocamlDemangle [99, 97, 109, 108, 70, 111, 111] =
      List.drop 4 [99, 97, 109, 108, 70, 111, 111] :=
  passthrough_decode [99, 97, 109, 108, 70, 111, 111]
    (by decide) (by decide) (by decide) (by decide)

/-- C9: the suffix-trim pass can delete the entire decoded output —
whenever the main-scan output is a single `'_'` followed only by
decimal digits (at least one), the final result is the empty string,
even though the input body past the 4-byte tag is non-empty. -/
theorem trim_can_delete_all (sym : List Nat) (ds : List Nat)
    (hscan : scanFrom sym 4 = 95 :: ds) (hne : ds ≠ [])
    (hds : ∀ c ∈ ds, isdigit c = true) :
    ocamlDemangle sym = [] ∧ 4 < sym.length := by
  constructor
  · unfold ocamlDemangle
    rw [hscan]
    have hlen : 0 < ds.length := List.length_pos.mpr hne
    have ht := trim_truncates (95 :: ds) 0 (by simp; omega) rfl ?hd
    case hd =>
      intro m h1 h2
      obtain ⟨m', rfl⟩ : ∃ m', m = m' + 1 := ⟨m - 1, by omega⟩
      have hm' : m' < ds.length := by
        simp only [List.length_cons] at h2
        omega
      show isdigit (ds.getD m' 0) = true
      rw [List.getD_eq_getElem ds 0 hm']
      exact hds ds[m'] (List.getElem_mem hm')
    rw [ht]
    rfl
  · by_contra hc
    rw [scanFrom_stop sym 4 (by omega)] at hscan
    exact List.noConfusion hscan

theorem trim_can_delete_all_witness :
    ocamlDemangle [99, 97, 109, 108, 95, 52, 50] = [] ∧
    4 < List.length [99, 97, 109, 108, 95, 52, 50] :=
  trim_can_delete_all [99, 97, 109, 108, 95, 52, 50] [52, 50]
    (by rw [scanFrom_eq_scanList]; decide) (by decide) (by decide)

/-- C10: the suffix-trim pass runs exactly once, removing at most the
final underscore-plus-digits run, so the returned output may itself
still end in an underscore followed by digits: decoding
`"camlFoo_1_2"` yields `"Foo_1"`, not `"Foo"` — although a second
application of the trim pass would shorten it further. -/
theorem trim_runs_once :
    ocamlDemangle [99, 97, 109, 108, 70, 111, 111, 95, 49, 95, 50] =
      [70, 111, 111, 95, 49] ∧
    trim [70, 111, 111, 95, 49] = [70, 111, 111] := by
  constructor
  · rw [ocamlDemangle_eval]
    decide
  · decide
